import Mathlib

/-!
# LazyCut manual editor — shallow embedding

A shallow embedding of the data model and the operations of the LazyCut
manual video editor (`src/manual_editor/models/project.py`,
`src/manual_editor/models/commands.py`, `src/manual_editor/export/ffmpeg_graph.py`,
`src/shared/project_io.py`), together with proofs about them.

Modelling conventions:
* Python `float` times and volumes are modelled as `ℚ` (the claims only
  involve exact comparisons and additions of concrete values).
* Python object mutation through a reference returned by
  `get_clip_by_id` is modelled as updating the first clip with the
  given id in the track lists.
* A Python method that returns `False` without mutating anything is
  modelled as an `Option`-valued function returning `none` (the caller
  keeps the unchanged project).
* `track_index` is modelled as `ℕ`; the Python field is an `int`, but
  every claim and every call site in the repository uses a
  non-negative index.
-/

namespace LazyCut

/- Batteries marks the rational-number arithmetic irreducible; the concrete
scenarios here evaluate it with `decide`, so restore unfolding locally. -/
attribute [local semireducible] Rat.add Rat.sub Rat.mul Rat.inv Rat.ofScientific

/-- `os.path.basename` for POSIX-style paths: the part after the last slash. -/
def basename (s : String) : String :=
  (s.splitOn "/").getLastD ""

/-- The `__post_init__` name defaulting shared by `Clip` and `AudioClip`:
`if not self.name: self.name = os.path.basename(self.source_file)`. -/
def postInitName (name source_file : String) : String :=
  if name = "" then basename source_file else name

/-- `Clip` (project.py): a video clip on the timeline. -/
structure Clip where
  id : String
  source_file : String
  in_time : ℚ
  out_time : ℚ
  timeline_start : ℚ
  track_index : Nat
  name : String
  enabled : Bool
deriving DecidableEq, Repr

namespace Clip

/-- The dataclass constructor runs `__post_init__`, which defaults the name. -/
def mkPost (id source_file : String) (in_time out_time timeline_start : ℚ)
    (track_index : Nat) (name : String) (enabled : Bool) : Clip :=
  { id, source_file, in_time, out_time, timeline_start, track_index,
    name := postInitName name source_file, enabled }

/-- `Clip.duration` property. -/
def duration (c : Clip) : ℚ := c.out_time - c.in_time

/-- `Clip.timeline_end` property. -/
def timeline_end (c : Clip) : ℚ := c.timeline_start + c.duration

/-- `Clip.contains_time`: `self.timeline_start <= time < self.timeline_end`. -/
def contains_time (c : Clip) (time : ℚ) : Prop :=
  c.timeline_start ≤ time ∧ time < c.timeline_end

instance (c : Clip) (t : ℚ) : Decidable (c.contains_time t) :=
  inferInstanceAs (Decidable (_ ∧ _))

end Clip

/-- `AudioClip` (project.py): an audio clip on the timeline. -/
structure AudioClip where
  id : String
  source_file : String
  in_time : ℚ
  out_time : ℚ
  timeline_start : ℚ
  track_index : Nat
  volume : ℚ
  name : String
  enabled : Bool
deriving DecidableEq, Repr

namespace AudioClip

def mkPost (id source_file : String) (in_time out_time timeline_start : ℚ)
    (track_index : Nat) (volume : ℚ) (name : String) (enabled : Bool) : AudioClip :=
  { id, source_file, in_time, out_time, timeline_start, track_index, volume,
    name := postInitName name source_file, enabled }

def duration (c : AudioClip) : ℚ := c.out_time - c.in_time

def timeline_end (c : AudioClip) : ℚ := c.timeline_start + c.duration

end AudioClip

/-- A subtitle style map: the Python `style` dict.  The claims never inspect
the style values, so entries are modelled as string key/value pairs. -/
abbrev StyleMap := List (String × String)

/-- `Subtitle` (project.py). -/
structure Subtitle where
  id : String
  text : String
  start_time : ℚ
  duration : ℚ
  style : StyleMap
deriving DecidableEq, Repr

namespace Subtitle

def end_time (s : Subtitle) : ℚ := s.start_time + s.duration

end Subtitle

/-- `ProjectSettings` (project.py). -/
structure ProjectSettings where
  width : Nat
  height : Nat
  fps : ℚ
  sample_rate : Nat
deriving DecidableEq, Repr

/-- The default `ProjectSettings()`. -/
def ProjectSettings.default : ProjectSettings :=
  { width := 1920, height := 1080, fps := 30, sample_rate := 48000 }

/-- `Project` (project.py).  `file_path` is a transient field that is not part
of the §3 data model and is never serialized; it is omitted here. -/
structure Project where
  id : String
  name : String
  video_tracks : List (List Clip)
  audio_tracks : List (List AudioClip)
  subtitles : List Subtitle
  settings : ProjectSettings
  media_pool : List String
deriving DecidableEq, Repr

section TrackHelpers

variable {α : Type}

/-- Update (in place) the first element with the given id in a flat list,
returning the element as it was before the update.  `none` when absent. -/
def updFirst (idOf : α → String) (cid : String) (f : α → α) : List α → Option (α × List α)
  | [] => none
  | c :: cs =>
    if idOf c = cid then some (c, f c :: cs)
    else
      match updFirst idOf cid f cs with
      | some r => some (r.1, c :: r.2)
      | none => none

/-- Remove the first element with the given id from a flat list, returning it. -/
def remFirst (idOf : α → String) (cid : String) : List α → Option (α × List α)
  | [] => none
  | c :: cs =>
    if idOf c = cid then some (c, cs)
    else
      match remFirst idOf cid cs with
      | some r => some (r.1, c :: r.2)
      | none => none

/-- Update the first element with the given id across a list of tracks. -/
def updFirstTracks (idOf : α → String) (cid : String) (f : α → α) :
    List (List α) → Option (α × List (List α))
  | [] => none
  | t :: ts =>
    match updFirst idOf cid f t with
    | some r => some (r.1, r.2 :: ts)
    | none =>
      match updFirstTracks idOf cid f ts with
      | some r => some (r.1, t :: r.2)
      | none => none

/-- Remove the first element with the given id across a list of tracks. -/
def remFirstTracks (idOf : α → String) (cid : String) :
    List (List α) → Option (α × List (List α))
  | [] => none
  | t :: ts =>
    match remFirst idOf cid t with
    | some r => some (r.1, r.2 :: ts)
    | none =>
      match remFirstTracks idOf cid ts with
      | some r => some (r.1, t :: r.2)
      | none => none

/-- The body of the `while len(tracks) <= k: tracks.append([])` loop of
`Project.add_clip` / `Project.add_audio_clip`.  The loop runs at most
`k + 1 - len(tracks)` times; that bound is passed as structural fuel so the
function evaluates by reduction (the guard still decides termination). -/
def extendLoop (fuel : Nat) (ts : List (List α)) (k : Nat) : List (List α) :=
  match fuel with
  | 0 => ts
  | f + 1 => if ts.length ≤ k then extendLoop f (ts ++ [[]]) k else ts

/-- The `while len(tracks) <= k: tracks.append([])` loop. -/
def extendTracks (ts : List (List α)) (k : Nat) : List (List α) :=
  extendLoop (k + 1 - ts.length) ts k

/-- Append `c` at index `k` of the (already long enough) track list:
`tracks[k].append(clip)`. -/
def appendAt (ts : List (List α)) (k : Nat) (c : α) : List (List α) :=
  ts.set k (ts.getD k [] ++ [c])

end TrackHelpers

namespace Project

/-- `Project.get_clip_by_id`: first clip with this id, scanning tracks in order. -/
def get_clip_by_id (p : Project) (cid : String) : Option Clip :=
  p.video_tracks.flatten.find? (fun c => c.id = cid)

/-- `Project.get_audio_clip_by_id`. -/
def get_audio_clip_by_id (p : Project) (cid : String) : Option AudioClip :=
  p.audio_tracks.flatten.find? (fun c => c.id = cid)

/-- `Project.get_subtitle_by_id`. -/
def get_subtitle_by_id (p : Project) (sid : String) : Option Subtitle :=
  p.subtitles.find? (fun s => s.id = sid)

/-- `Project.add_clip`: extend the track list up to `track_index`, then append. -/
def add_clip (p : Project) (c : Clip) : Project :=
  { p with video_tracks := appendAt (extendTracks p.video_tracks c.track_index) c.track_index c }

/-- `Project.add_audio_clip`. -/
def add_audio_clip (p : Project) (c : AudioClip) : Project :=
  { p with audio_tracks := appendAt (extendTracks p.audio_tracks c.track_index) c.track_index c }

/-- `Project.add_subtitle`. -/
def add_subtitle (p : Project) (s : Subtitle) : Project :=
  { p with subtitles := p.subtitles ++ [s] }

/-- `Project.remove_clip`: remove the first clip with this id; `none` when the
project holds no such clip (Python returns `False` and changes nothing). -/
def remove_clip (p : Project) (cid : String) : Option Project :=
  (remFirstTracks (fun c : Clip => c.id) cid p.video_tracks).map
    (fun r => { p with video_tracks := r.2 })

/-- `Project.remove_audio_clip`. -/
def remove_audio_clip (p : Project) (cid : String) : Option Project :=
  (remFirstTracks (fun c : AudioClip => c.id) cid p.audio_tracks).map
    (fun r => { p with audio_tracks := r.2 })

/-- `Project.remove_subtitle`. -/
def remove_subtitle (p : Project) (sid : String) : Option Project :=
  (remFirst (fun s : Subtitle => s.id) sid p.subtitles).map
    (fun r => { p with subtitles := r.2 })

end Project

/-! ## Commands (commands.py)

Each Python command object stores, at `execute()` time, the old values it
needs for `undo()`.  The stored values are modelled by `Saved`; `execCmd`
returns the project after execution together with the saved values, and
`undoCmd` consumes them.  A command's `redo` is a second call to
`execute()` on the same object, i.e. `execCmd` again. -/

/-- The per-command state stored for undo (the `self._old_*` fields). -/
inductive Saved where
  | moveS (old_start : ℚ)
  | trimS (old_in_time old_out_time old_timeline_start : ℚ)
  | deleteS (clip : Clip)
  | addS
  | volumeS (old_volume : ℚ)
  | editSubS (old_text : String) (old_start_time old_duration : ℚ)
deriving DecidableEq, Repr

/-- The six command kinds of the undo/redo symmetry claim:
`MoveClipCommand`, `TrimClipCommand`, `DeleteClipCommand`, `AddClipCommand`,
`ChangeAudioVolumeCommand`, `EditSubtitleCommand`. -/
inductive EditorCommand where
  | move (clip_id : String) (new_start : ℚ)
  | trim (clip_id : String) (new_in_time new_out_time new_timeline_start : Option ℚ)
  | delete (clip_id : String)
  | add (clip : Clip)
  | changeVolume (clip_id : String) (new_volume : ℚ)
  | editSubtitle (subtitle_id : String) (new_text : Option String)
      (new_start_time new_duration : Option ℚ)
deriving DecidableEq, Repr

/-- `TrimClipCommand.execute`: apply each new value when it is not `None`. -/
def applyTrim (ni no nts : Option ℚ) (c : Clip) : Clip :=
  let c := match ni with | some v => { c with in_time := v } | none => c
  let c := match no with | some v => { c with out_time := v } | none => c
  match nts with | some v => { c with timeline_start := v } | none => c

/-- `EditSubtitleCommand.execute`: apply each new value when it is not `None`. -/
def applyEditSub (nt : Option String) (ns nd : Option ℚ) (s : Subtitle) : Subtitle :=
  let s := match nt with | some v => { s with text := v } | none => s
  let s := match ns with | some v => { s with start_time := v } | none => s
  match nd with | some v => { s with duration := v } | none => s

/-- `execute()` of the six commands.  `none` models `return False` with the
project unchanged. -/
def execCmd : EditorCommand → Project → Option (Project × Saved)
  | .move cid ns, p =>
    (updFirstTracks (fun c : Clip => c.id) cid
        (fun c => { c with timeline_start := ns }) p.video_tracks).map
      (fun r => ({ p with video_tracks := r.2 }, .moveS r.1.timeline_start))
  | .trim cid ni no nts, p =>
    (updFirstTracks (fun c : Clip => c.id) cid (applyTrim ni no nts) p.video_tracks).map
      (fun r => ({ p with video_tracks := r.2 },
        .trimS r.1.in_time r.1.out_time r.1.timeline_start))
  | .delete cid, p =>
    (remFirstTracks (fun c : Clip => c.id) cid p.video_tracks).map
      (fun r => ({ p with video_tracks := r.2 }, .deleteS r.1))
  | .add c, p => some (p.add_clip c, .addS)
  | .changeVolume cid nv, p =>
    (updFirstTracks (fun c : AudioClip => c.id) cid
        (fun c => { c with volume := nv }) p.audio_tracks).map
      (fun r => ({ p with audio_tracks := r.2 }, .volumeS r.1.volume))
  | .editSubtitle sid nt ns nd, p =>
    (updFirst (fun s : Subtitle => s.id) sid (applyEditSub nt ns nd) p.subtitles).map
      (fun r => ({ p with subtitles := r.2 },
        .editSubS r.1.text r.1.start_time r.1.duration))

/-- `undo()` of the six commands, consuming the values saved by `execute()`.
A mismatched `Saved` shape cannot arise from `execCmd` and yields `none`. -/
def undoCmd : EditorCommand → Saved → Project → Option Project
  | .move cid _, .moveS old, p =>
    (updFirstTracks (fun c : Clip => c.id) cid
        (fun c => { c with timeline_start := old }) p.video_tracks).map
      (fun r => { p with video_tracks := r.2 })
  | .trim cid _ _ _, .trimS oi oo ots, p =>
    (updFirstTracks (fun c : Clip => c.id) cid
        (fun c => { c with in_time := oi, out_time := oo, timeline_start := ots })
        p.video_tracks).map
      (fun r => { p with video_tracks := r.2 })
  | .delete _, .deleteS c, p => some (p.add_clip c)
  | .add c, .addS, p => p.remove_clip c.id
  | .changeVolume cid _, .volumeS old, p =>
    (updFirstTracks (fun c : AudioClip => c.id) cid
        (fun c => { c with volume := old }) p.audio_tracks).map
      (fun r => { p with audio_tracks := r.2 })
  | .editSubtitle sid _ _ _, .editSubS ot os od, p =>
    (updFirst (fun s : Subtitle => s.id) sid
        (fun s => { s with text := ot, start_time := os, duration := od })
        p.subtitles).map
      (fun r => { p with subtitles := r.2 })
  | _, _, _ => none

/-- `SplitClipCommand.execute`.  The fresh uuid of `Clip.create_new` is passed
in as `new_id`; the new clip's name is `f"{clip.name} (2)"` and the original
clip's `out_time` becomes the split source time, after which the new clip is
added to the project. -/
def splitExec (p : Project) (clip_id : String) (split_time : ℚ) (new_id : String) :
    Option (Project × Clip × ℚ) :=
  match p.get_clip_by_id clip_id with
  | none => none
  | some clip =>
    if clip.contains_time split_time then
      let time_into_clip := split_time - clip.timeline_start
      let split_source_time := clip.in_time + time_into_clip
      let old_out_time := clip.out_time
      let new_clip : Clip :=
        { id := new_id, source_file := clip.source_file,
          in_time := split_source_time, out_time := clip.out_time,
          timeline_start := split_time, track_index := clip.track_index,
          name := clip.name ++ " (2)", enabled := true }
      match updFirstTracks (fun c : Clip => c.id) clip_id
          (fun c => { c with out_time := split_source_time }) p.video_tracks with
      | none => none
      | some r =>
        some (({ p with video_tracks := r.2 } : Project).add_clip new_clip,
          new_clip, old_out_time)
    else none

/-- `SplitClipCommand.undo`: remove the new clip (its return value is
discarded by the source), then restore the original clip's `out_time`. -/
def splitUndo (p : Project) (clip_id : String) (new_clip : Clip) (old_out_time : ℚ) :
    Option Project :=
  let p1 := (p.remove_clip new_clip.id).getD p
  (updFirstTracks (fun c : Clip => c.id) clip_id
      (fun c => { c with out_time := old_out_time }) p1.video_tracks).map
    (fun r => { p1 with video_tracks := r.2 })

/-! ## Command history (commands.py `CommandHistory`) -/

/-- `CommandHistory`: undo stack, redo stack and the `max_history` bound. -/
structure CommandHistory (κ : Type) where
  undo_stack : List κ
  redo_stack : List κ
  max_history : Nat
deriving DecidableEq, Repr

/-- `CommandHistory.execute`, generic over how a command acts on a state:
on success push onto the undo stack, clear the redo stack, and when the
stack exceeds `max_history` pop the bottom entry (`pop(0)`). -/
def histExecute {κ σ : Type} (run : κ → σ → Option σ)
    (h : CommandHistory κ) (st : σ) (c : κ) : CommandHistory κ × σ :=
  match run c st with
  | none => (h, st)
  | some st2 =>
    let us := h.undo_stack ++ [c]
    (⟨if h.max_history < us.length then us.drop 1 else us, [], h.max_history⟩, st2)

/-- Execute a list of commands through the history in order. -/
def histExecuteAll {κ σ : Type} (run : κ → σ → Option σ) :
    CommandHistory κ × σ → List κ → CommandHistory κ × σ
  | hs, [] => hs
  | (h, st), c :: cs => histExecuteAll run (histExecute run h st c) cs

/-- Run a list of commands directly on the state; `none` when any fails. -/
def runAll {κ σ : Type} (run : κ → σ → Option σ) : σ → List κ → Option σ
  | st, [] => some st
  | st, c :: cs =>
    match run c st with
    | none => none
    | some st2 => runAll run st2 cs

/-! ## Export graph builder (ffmpeg_graph.py)

`build_export_command` is modelled structurally: the `-i` inputs are the
deduplicated source-file list, and each entry of the Python `filter_parts`
string list becomes a `FilterPart` value.  A `trim`/`atrim` part carries the
input index, the `[in_time, out_time)` range and the numeric label of its
`[vN]`/`[aN]` output stream; the `setpts`/`asetpts` timestamp reset that the
source appends inside the same filter-parts entry is part of the same
constructor. -/

/-- `TrimmedClip` (ffmpeg_graph.py). -/
structure TrimmedClip where
  source_file : String
  in_time : ℚ
  out_time : ℚ
  timeline_start : ℚ
deriving DecidableEq, Repr

/-- `ExportSettings` (ffmpeg_graph.py). -/
structure ExportSettings where
  output_path : String
  width : Nat
  height : Nat
  fps : ℚ
  video_codec : String
  video_preset : String
  video_crf : Nat
  audio_codec : String
  audio_bitrate : String
  burn_subtitles : Bool
deriving DecidableEq, Repr

def TrimmedClip.ofClip (c : Clip) : TrimmedClip :=
  ⟨c.source_file, c.in_time, c.out_time, c.timeline_start⟩

def TrimmedClip.ofAudioClip (c : AudioClip) : TrimmedClip :=
  ⟨c.source_file, c.in_time, c.out_time, c.timeline_start⟩

/-- Insert into a list sorted by `timeline_start`, before the first strictly
larger key, so that the overall sort is stable like Python `list.sort`. -/
def insertByStart (c : TrimmedClip) : List TrimmedClip → List TrimmedClip
  | [] => [c]
  | d :: ds =>
    if c.timeline_start ≤ d.timeline_start then c :: d :: ds
    else d :: insertByStart c ds

/-- Stable sort by `timeline_start`, modelling `clips.sort(key=lambda c: c.timeline_start)`. -/
def sortByStart : List TrimmedClip → List TrimmedClip
  | [] => []
  | c :: cs => insertByStart c (sortByStart cs)

/-- `FFmpegGraphBuilder._collect_video_clips`: enabled clips of all video
tracks, track order then clip order, sorted by timeline position. -/
def collect_video_clips (p : Project) : List TrimmedClip :=
  sortByStart ((p.video_tracks.flatten.filter (fun c => c.enabled)).map TrimmedClip.ofClip)

/-- `FFmpegGraphBuilder._collect_audio_clips`. -/
def collect_audio_clips (p : Project) : List TrimmedClip :=
  sortByStart ((p.audio_tracks.flatten.filter (fun c => c.enabled)).map TrimmedClip.ofAudioClip)

/-- The input-deduplication loop: for each clip whose source file has no
input yet, append one `-i` entry.  `acc` is the input list built so far;
a source's input index is its position in the final list. -/
def collectInputs : List TrimmedClip → List String → List String
  | [], acc => acc
  | c :: cs, acc =>
    if c.source_file ∈ acc then collectInputs cs acc
    else collectInputs cs (acc ++ [c.source_file])

/-- One entry of the `filter_parts` list of `build_export_command`. -/
inductive FilterPart where
  /-- `[i:v]trim=start=in:end=out,setpts=PTS-STARTPTS[v label]` -/
  | vtrim (input_index : Nat) (in_time out_time : ℚ) (label : Nat)
  /-- `concat=n=n:v=1:a=0[outv]` over all video trim streams -/
  | vconcat (n : Nat)
  /-- single-clip `null[outv]` rename -/
  | vnull
  /-- `[i:a]atrim=start=in:end=out,asetpts=PTS-STARTPTS[a label]` -/
  | atrim (input_index : Nat) (in_time out_time : ℚ) (label : Nat)
  /-- `concat=n=n:v=0:a=1[outa]` -/
  | aconcat (n : Nat)
  /-- single-clip `anull[outa]` rename -/
  | anull
  /-- `scale=w:h:...,pad=w:h:...[scaled]` -/
  | scalePad (width height : Nat)
  /-- `subtitles=...[final]` burning the SRT file -/
  | subtitleBurn (srt_path : String)
  /-- final `null[final]` rename -/
  | finalNull
deriving DecidableEq, Repr

/-- The `for i, clip in enumerate(clips)` trim-node loop: label `i` starts at
the given counter, each node references `input_map[clip.source_file]` and the
clip's `[in_time, out_time)` range. -/
def trimSection (mk : Nat → ℚ → ℚ → Nat → FilterPart) (inputs : List String) :
    Nat → List TrimmedClip → List FilterPart
  | _, [] => []
  | i, c :: cs =>
    mk (inputs.indexOf c.source_file) c.in_time c.out_time i
      :: trimSection mk inputs (i + 1) cs

/-- The compiled export command: deduplicated `-i` inputs, the filter-graph
parts in emission order, and the output path. -/
structure ExportCommand where
  inputs : List String
  filter_parts : List FilterPart
  output_path : String
deriving DecidableEq, Repr

/-- The last filter part: burn the SRT file when it is given, subtitles are
on and the file exists, else the final `null` rename. -/
def finalSegment (settings : ExportSettings) (srt_path : Option String)
    (srt_exists : Bool) : List FilterPart :=
  match srt_path with
  | some sp =>
    if settings.burn_subtitles ∧ srt_exists then [FilterPart.subtitleBurn sp]
    else [FilterPart.finalNull]
  | none => [FilterPart.finalNull]

/-- `FFmpegGraphBuilder.build_export_command`.  `srt_exists` stands for
`os.path.exists(srt_path)`.  Raising `ValueError("No video clips to export")`
is modelled as `Except.error`. -/
def build_export_command (p : Project) (settings : ExportSettings)
    (srt_path : Option String) (srt_exists : Bool) : Except String ExportCommand :=
  let video_clips := collect_video_clips p
  let audio_clips := collect_audio_clips p
  if video_clips = [] then .error "No video clips to export"
  else
    let inputs := collectInputs audio_clips (collectInputs video_clips [])
    let vparts := trimSection .vtrim inputs 0 video_clips
    let vtail := if 1 < video_clips.length
      then [FilterPart.vconcat video_clips.length] else [FilterPart.vnull]
    -- the source iterates over `video_clips` again for the audio section
    -- ("for simplicity, use first video's audio")
    let aparts := trimSection .atrim inputs 0 video_clips
    let atail := if 1 < video_clips.length
      then [FilterPart.aconcat video_clips.length] else [FilterPart.anull]
    let sparts := if settings.width ≠ 0 ∨ settings.height ≠ 0
      then [FilterPart.scalePad settings.width settings.height] else []
    let fparts := finalSegment settings srt_path srt_exists
    .ok { inputs,
          filter_parts := vparts ++ vtail ++ aparts ++ atail ++ sparts ++ fparts,
          output_path := settings.output_path }

/-! ## Serialization (project.py `to_dict`/`from_dict`, shared/project_io.py)

The JSON dictionaries written by `to_dict` always carry every key, so each
dict is modelled as a structure with exactly those keys; `json.dump`
followed by `json.load` is value-preserving on them. -/

/-- The dict produced by `Clip.to_dict`. -/
structure ClipDict where
  id : String
  source_file : String
  in_time : ℚ
  out_time : ℚ
  timeline_start : ℚ
  track_index : Nat
  name : String
  enabled : Bool
deriving DecidableEq, Repr

def Clip.to_dict (c : Clip) : ClipDict :=
  ⟨c.id, c.source_file, c.in_time, c.out_time, c.timeline_start,
    c.track_index, c.name, c.enabled⟩

/-- `Clip.from_dict`: the dataclass constructor runs `__post_init__`. -/
def Clip.from_dict (d : ClipDict) : Clip :=
  Clip.mkPost d.id d.source_file d.in_time d.out_time d.timeline_start
    d.track_index d.name d.enabled

/-- The dict produced by `AudioClip.to_dict`. -/
structure AudioClipDict where
  id : String
  source_file : String
  in_time : ℚ
  out_time : ℚ
  timeline_start : ℚ
  track_index : Nat
  volume : ℚ
  name : String
  enabled : Bool
deriving DecidableEq, Repr

def AudioClip.to_dict (c : AudioClip) : AudioClipDict :=
  ⟨c.id, c.source_file, c.in_time, c.out_time, c.timeline_start,
    c.track_index, c.volume, c.name, c.enabled⟩

def AudioClip.from_dict (d : AudioClipDict) : AudioClip :=
  AudioClip.mkPost d.id d.source_file d.in_time d.out_time d.timeline_start
    d.track_index d.volume d.name d.enabled

/-- The dict produced by `Subtitle.to_dict` (`style` is copied). -/
structure SubtitleDict where
  id : String
  text : String
  start_time : ℚ
  duration : ℚ
  style : StyleMap
deriving DecidableEq, Repr

def Subtitle.to_dict (s : Subtitle) : SubtitleDict :=
  ⟨s.id, s.text, s.start_time, s.duration, s.style⟩

def Subtitle.from_dict (d : SubtitleDict) : Subtitle :=
  ⟨d.id, d.text, d.start_time, d.duration, d.style⟩

/-- The dict produced by `ProjectSettings.to_dict`. -/
structure SettingsDict where
  width : Nat
  height : Nat
  fps : ℚ
  sample_rate : Nat
deriving DecidableEq, Repr

def ProjectSettings.to_dict (s : ProjectSettings) : SettingsDict :=
  ⟨s.width, s.height, s.fps, s.sample_rate⟩

def ProjectSettings.from_dict (d : SettingsDict) : ProjectSettings :=
  ⟨d.width, d.height, d.fps, d.sample_rate⟩

/-- The dict produced by `Project.to_dict`. -/
structure ProjectDict where
  id : String
  name : String
  video_tracks : List (List ClipDict)
  audio_tracks : List (List AudioClipDict)
  subtitles : List SubtitleDict
  settings : SettingsDict
  media_pool : List String
deriving DecidableEq, Repr

def Project.to_dict (p : Project) : ProjectDict :=
  ⟨p.id, p.name,
    p.video_tracks.map (fun t => t.map Clip.to_dict),
    p.audio_tracks.map (fun t => t.map AudioClip.to_dict),
    p.subtitles.map Subtitle.to_dict,
    p.settings.to_dict,
    p.media_pool⟩

def Project.from_dict (d : ProjectDict) : Project :=
  ⟨d.id, d.name,
    d.video_tracks.map (fun t => t.map Clip.from_dict),
    d.audio_tracks.map (fun t => t.map AudioClip.from_dict),
    d.subtitles.map Subtitle.from_dict,
    ProjectSettings.from_dict d.settings,
    d.media_pool⟩

/-- The JSON file written by `save_project`: version, timestamp, project dict. -/
structure SaveFile where
  version : String
  saved_at : String
  project : ProjectDict
deriving DecidableEq, Repr

/-- `save_project` (project_io.py); `saved_at` stands for
`datetime.now().isoformat()`, and the file-system write is value-preserving. -/
def save_project (p : Project) (saved_at : String) : SaveFile :=
  { version := "1.0.0", saved_at, project := p.to_dict }

/-- `load_project` (project_io.py): the `project` entry is always a non-empty
dict here, so the `if not project_data` error path does not apply. -/
def load_project (f : SaveFile) : Project :=
  Project.from_dict f.project

/-! ## Helper lemmas about the track-list operations -/

section TrackLemmas

variable {α : Type} {idOf : α → String} {cid : String} {f g : α → α}

theorem updFirst_none_iff {l : List α} :
    updFirst idOf cid f l = none ↔ ∀ x ∈ l, idOf x ≠ cid := by
  induction l with
  | nil => simp [updFirst]
  | cons x xs ih =>
    by_cases h : idOf x = cid
    · simp [updFirst, h]
    · cases hrec : updFirst idOf cid f xs with
      | some r =>
        simp only [updFirst, if_neg h, hrec]
        constructor
        · intro hc; exact absurd hc (by simp)
        · intro hall
          have hn := ih.mpr (fun y hy => hall y (List.mem_cons_of_mem _ hy))
          rw [hrec] at hn
          exact absurd hn (by simp)
      | none =>
        simp only [updFirst, if_neg h, hrec]
        constructor
        · intro _ y hy
          rcases List.mem_cons.mp hy with rfl | hmem
          · exact h
          · exact ih.mp hrec y hmem
        · intro _; trivial

theorem remFirst_none_iff {l : List α} :
    remFirst idOf cid l = none ↔ ∀ x ∈ l, idOf x ≠ cid := by
  induction l with
  | nil => simp [remFirst]
  | cons x xs ih =>
    by_cases h : idOf x = cid
    · simp [remFirst, h]
    · cases hrec : remFirst idOf cid xs with
      | some r =>
        simp only [remFirst, if_neg h, hrec]
        constructor
        · intro hc; exact absurd hc (by simp)
        · intro hall
          have hn := ih.mpr (fun y hy => hall y (List.mem_cons_of_mem _ hy))
          rw [hrec] at hn
          exact absurd hn (by simp)
      | none =>
        simp only [remFirst, if_neg h, hrec]
        constructor
        · intro _ y hy
          rcases List.mem_cons.mp hy with rfl | hmem
          · exact h
          · exact ih.mp hrec y hmem
        · intro _; trivial

theorem updFirst_restore {l l2 : List α} {c : α}
    (h : updFirst idOf cid f l = some (c, l2))
    (hid : ∀ x, idOf (f x) = idOf x) (hg : g (f c) = c) :
    updFirst idOf cid g l2 = some (f c, l) := by
  induction l generalizing l2 with
  | nil => simp [updFirst] at h
  | cons x xs ih =>
    by_cases hx : idOf x = cid
    · simp only [updFirst, if_pos hx, Option.some.injEq, Prod.mk.injEq] at h
      obtain ⟨rfl, rfl⟩ := h
      simp [updFirst, hid, hx, hg]
    · cases hrec : updFirst idOf cid f xs with
      | none => simp [updFirst, hx, hrec] at h
      | some r =>
        obtain ⟨a, b⟩ := r
        simp only [updFirst, if_neg hx, hrec, Option.some.injEq, Prod.mk.injEq] at h
        obtain ⟨rfl, rfl⟩ := h
        simp [updFirst, hx, ih hrec]

theorem updFirstTracks_none_iff {ts : List (List α)} :
    updFirstTracks idOf cid f ts = none ↔ ∀ t ∈ ts, ∀ x ∈ t, idOf x ≠ cid := by
  induction ts with
  | nil => simp [updFirstTracks]
  | cons t rest ih =>
    cases ht : updFirst idOf cid f t with
    | some r =>
      simp only [updFirstTracks, ht]
      constructor
      · intro h; exact absurd h (by simp)
      · intro hall
        have hn : updFirst idOf cid f t = none :=
          updFirst_none_iff.mpr (fun x hx => hall t (List.mem_cons_self t rest) x hx)
        rw [ht] at hn
        exact absurd hn (by simp)
    | none =>
      have hids := updFirst_none_iff.mp ht
      cases hrest : updFirstTracks idOf cid f rest with
      | some r =>
        simp only [updFirstTracks, ht, hrest]
        constructor
        · intro h; exact absurd h (by simp)
        · intro hall
          have hn := ih.mpr (fun t2 ht2 => hall t2 (List.mem_cons_of_mem _ ht2))
          rw [hrest] at hn
          exact absurd hn (by simp)
      | none =>
        simp only [updFirstTracks, ht, hrest]
        constructor
        · intro _ t2 ht2
          rcases List.mem_cons.mp ht2 with rfl | hmem
          · exact hids
          · exact ih.mp hrest t2 hmem
        · intro _; trivial

theorem updFirstTracks_restore {ts ts2 : List (List α)} {c : α}
    (h : updFirstTracks idOf cid f ts = some (c, ts2))
    (hid : ∀ x, idOf (f x) = idOf x) (hg : g (f c) = c) :
    updFirstTracks idOf cid g ts2 = some (f c, ts) := by
  induction ts generalizing ts2 with
  | nil => simp [updFirstTracks] at h
  | cons t rest ih =>
    cases ht : updFirst idOf cid f t with
    | some r =>
      obtain ⟨a, b⟩ := r
      simp only [updFirstTracks, ht, Option.some.injEq, Prod.mk.injEq] at h
      obtain ⟨rfl, rfl⟩ := h
      have := updFirst_restore ht hid hg
      simp [updFirstTracks, this]
    | none =>
      cases hrest : updFirstTracks idOf cid f rest with
      | none => simp [updFirstTracks, ht, hrest] at h
      | some r =>
        obtain ⟨a, b⟩ := r
        simp only [updFirstTracks, ht, hrest, Option.some.injEq, Prod.mk.injEq] at h
        obtain ⟨rfl, rfl⟩ := h
        have hnone : updFirst idOf cid g t = none :=
          updFirst_none_iff.mpr (updFirst_none_iff.mp ht)
        simp [updFirstTracks, hnone, ih hrest]

theorem remFirst_spec {l l2 : List α} {c : α}
    (h : remFirst idOf cid l = some (c, l2)) :
    idOf c = cid ∧ ∃ l₁ l₃, l = l₁ ++ c :: l₃ ∧ l2 = l₁ ++ l₃ := by
  induction l generalizing l2 with
  | nil => simp [remFirst] at h
  | cons x xs ih =>
    by_cases hx : idOf x = cid
    · simp only [remFirst, if_pos hx, Option.some.injEq, Prod.mk.injEq] at h
      obtain ⟨rfl, rfl⟩ := h
      exact ⟨hx, [], xs, rfl, rfl⟩
    · cases hrec : remFirst idOf cid xs with
      | none => simp [remFirst, hx, hrec] at h
      | some r =>
        obtain ⟨a, b⟩ := r
        simp only [remFirst, if_neg hx, hrec, Option.some.injEq, Prod.mk.injEq] at h
        obtain ⟨rfl, rfl⟩ := h
        obtain ⟨hid, l₁, l₃, rfl, rfl⟩ := ih hrec
        exact ⟨hid, x :: l₁, l₃, rfl, rfl⟩

theorem remFirst_countP {l l2 : List α} {c : α}
    (h : remFirst idOf cid l = some (c, l2)) :
    l.countP (fun x => idOf x = cid) = l2.countP (fun x => idOf x = cid) + 1 := by
  obtain ⟨hid, l₁, l₃, rfl, rfl⟩ := remFirst_spec h
  simp [List.countP_append, List.countP_cons, hid]
  omega

theorem remFirst_append_last {l : List α} {c : α}
    (hl : ∀ x ∈ l, idOf x ≠ cid) (hc : idOf c = cid) :
    remFirst idOf cid (l ++ [c]) = some (c, l) := by
  induction l with
  | nil => simp [remFirst, hc]
  | cons x xs ih =>
    have hx := hl x (List.mem_cons_self x xs)
    have := ih (fun y hy => hl y (List.mem_cons_of_mem _ hy))
    simp [remFirst, hx, this]

theorem remFirstTracks_spec {ts ts2 : List (List α)} {c : α}
    (h : remFirstTracks idOf cid ts = some (c, ts2)) :
    idOf c = cid ∧ ts2.length = ts.length ∧
    (∃ (i : Nat) (t : List α), ts[i]? = some t ∧ c ∈ t) ∧
    ts.flatten.countP (fun x => idOf x = cid)
      = ts2.flatten.countP (fun x => idOf x = cid) + 1 := by
  induction ts generalizing ts2 with
  | nil => simp [remFirstTracks] at h
  | cons t rest ih =>
    cases ht : remFirst idOf cid t with
    | some r =>
      obtain ⟨a, b⟩ := r
      simp only [remFirstTracks, ht, Option.some.injEq, Prod.mk.injEq] at h
      obtain ⟨rfl, rfl⟩ := h
      obtain ⟨hid, l₁, l₃, hdec, rfl⟩ := remFirst_spec ht
      refine ⟨hid, by simp, ⟨0, t, ?_, ?_⟩, ?_⟩
      · simp
      · rw [hdec]; exact List.mem_append_right _ (List.mem_cons_self _ _)
      · have hcnt := remFirst_countP ht
        simp only [List.countP_append] at hcnt
        simp only [List.flatten_cons, List.countP_append]
        omega
    | none =>
      cases hrest : remFirstTracks idOf cid rest with
      | none => simp [remFirstTracks, ht, hrest] at h
      | some r =>
        obtain ⟨a, b⟩ := r
        simp only [remFirstTracks, ht, hrest, Option.some.injEq, Prod.mk.injEq] at h
        obtain ⟨rfl, rfl⟩ := h
        obtain ⟨hid, hlen, ⟨i, t2, hit, hmem⟩, hcnt⟩ := ih hrest
        refine ⟨hid, by simp [hlen], ⟨i + 1, t2, ?_, hmem⟩, ?_⟩
        · simpa using hit
        · simp only [List.flatten_cons, List.countP_append]
          omega

theorem remFirstTracks_appendAt {ts : List (List α)} {c : α} {i : Nat}
    (hi : i < ts.length) (hall : ∀ x ∈ ts.flatten, idOf x ≠ cid)
    (hc : idOf c = cid) :
    remFirstTracks idOf cid (appendAt ts i c) = some (c, ts) := by
  induction ts generalizing i with
  | nil => simp at hi
  | cons t rest ih =>
    cases i with
    | zero =>
      have hfront : appendAt (t :: rest) 0 c = (t ++ [c]) :: rest := by
        simp [appendAt, List.getD]
      rw [hfront]
      have hmemt : ∀ x ∈ t, idOf x ≠ cid := fun x hx =>
        hall x (by simp only [List.flatten_cons, List.mem_append]; exact Or.inl hx)
      have hrem := remFirst_append_last (l := t) hmemt hc
      simp [remFirstTracks, hrem]
    | succ j =>
      have hfront : appendAt (t :: rest) (j + 1) c = t :: appendAt rest j c := by
        simp [appendAt, List.getD]
      rw [hfront]
      have hnone : remFirst idOf cid t = none :=
        remFirst_none_iff.mpr (fun x hx =>
          hall x (by simp only [List.flatten_cons, List.mem_append]; exact Or.inl hx))
      have hrec := ih (by simpa using hi)
        (fun x hx => hall x
          (by simp only [List.flatten_cons, List.mem_append]; exact Or.inr hx))
      simp [remFirstTracks, hnone, hrec]

theorem countP_le_one_of_nodup_map {l : List α}
    (h : (l.map idOf).Nodup) :
    l.countP (fun x => idOf x = cid) ≤ 1 := by
  induction l with
  | nil => simp
  | cons x xs ih =>
    simp only [List.map_cons, List.nodup_cons] at h
    obtain ⟨hnot, hnd⟩ := h
    by_cases hx : idOf x = cid
    · have hz : xs.countP (fun y => idOf y = cid) = 0 := by
        rw [List.countP_eq_zero]
        intro y hy
        simp only [decide_eq_true_eq]
        intro hcid
        exact hnot (hx ▸ hcid ▸ List.mem_map_of_mem idOf hy)
      simp [List.countP_cons, hx, hz]
    · simpa [List.countP_cons, hx] using ih hnd

end TrackLemmas

section ExtendLemmas

variable {α : Type}

theorem extendLoop_eq :
    ∀ (fuel : Nat) (ts : List (List α)) (k : Nat), k + 1 - ts.length ≤ fuel →
      extendLoop fuel ts k = ts ++ List.replicate (k + 1 - ts.length) [] := by
  intro fuel
  induction fuel with
  | zero =>
    intro ts k h
    have : k + 1 - ts.length = 0 := by omega
    simp [extendLoop, this]
  | succ n ih =>
    intro ts k h
    by_cases hlen : ts.length ≤ k
    · have hlen1 : (ts ++ [[]]).length = ts.length + 1 := by simp
      have harg : k + 1 - (ts ++ [[]]).length ≤ n := by rw [hlen1]; omega
      rw [extendLoop, if_pos hlen, ih (ts ++ [[]]) k harg, hlen1]
      have h2 : k + 1 - (ts.length + 1) = k - ts.length := by omega
      have h3 : k + 1 - ts.length = (k - ts.length) + 1 := by omega
      rw [h2, h3, List.append_assoc]
      simp [List.replicate_succ]
    · rw [extendLoop, if_neg hlen]
      have : k + 1 - ts.length = 0 := by omega
      simp [this]

theorem extendTracks_eq (ts : List (List α)) (k : Nat) :
    extendTracks ts k = ts ++ List.replicate (k + 1 - ts.length) [] :=
  extendLoop_eq (k + 1 - ts.length) ts k le_rfl

theorem extendTracks_length (ts : List (List α)) (k : Nat) :
    (extendTracks ts k).length = max ts.length (k + 1) := by
  rw [extendTracks_eq]; simp; omega

theorem extendTracks_of_lt {ts : List (List α)} {k : Nat} (h : k < ts.length) :
    extendTracks ts k = ts := by
  rw [extendTracks_eq]
  have : k + 1 - ts.length = 0 := by omega
  simp [this]

theorem flatten_replicate_nil (n : Nat) :
    (List.replicate n ([] : List α)).flatten = [] := by
  induction n with
  | zero => simp
  | succ m ih => simp [List.replicate, ih]

theorem extendTracks_flatten (ts : List (List α)) (k : Nat) :
    (extendTracks ts k).flatten = ts.flatten := by
  rw [extendTracks_eq, List.flatten_append, flatten_replicate_nil, List.append_nil]

end ExtendLemmas

section FindLemmas

variable {α : Type} {idOf : α → String} {cid : String} {f : α → α}

theorem updFirst_of_find? {l : List α} {c : α}
    (h : l.find? (fun x => idOf x = cid) = some c)
    (hid : ∀ x, idOf (f x) = idOf x) :
    ∃ l2, updFirst idOf cid f l = some (c, l2) ∧
      l2.find? (fun x => idOf x = cid) = some (f c) := by
  induction l with
  | nil => simp at h
  | cons x xs ih =>
    by_cases hx : idOf x = cid
    · rw [List.find?_cons_of_pos _ (by simp [hx])] at h
      obtain rfl := Option.some.injEq .. ▸ h
      refine ⟨f x :: xs, by simp [updFirst, hx], ?_⟩
      rw [List.find?_cons_of_pos _ (by simp [hid, hx])]
    · rw [List.find?_cons_of_neg _ (by simp [hx])] at h
      obtain ⟨l2, hupd, hfind⟩ := ih h
      refine ⟨x :: l2, by simp [updFirst, hx, hupd], ?_⟩
      rw [List.find?_cons_of_neg _ (by simp [hx]), hfind]

theorem updFirstTracks_of_find? {ts : List (List α)} {c : α}
    (h : ts.flatten.find? (fun x => idOf x = cid) = some c)
    (hid : ∀ x, idOf (f x) = idOf x) :
    ∃ ts2, updFirstTracks idOf cid f ts = some (c, ts2) ∧
      ts2.flatten.find? (fun x => idOf x = cid) = some (f c) := by
  induction ts with
  | nil => simp at h
  | cons t rest ih =>
    rw [List.flatten_cons, List.find?_append] at h
    cases hft : t.find? (fun x => idOf x = cid) with
    | some a =>
      rw [hft] at h
      obtain rfl : a = c := by simpa using h
      obtain ⟨l2, hupd, hfind⟩ := updFirst_of_find? hft hid
      refine ⟨l2 :: rest, by simp [updFirstTracks, hupd], ?_⟩
      rw [List.flatten_cons, List.find?_append, hfind]
      rfl
    | none =>
      rw [hft] at h
      simp only [Option.none_or] at h
      obtain ⟨ts2, hupd, hfind⟩ := ih h
      have hnone : updFirst idOf cid f t = none :=
        updFirst_none_iff.mpr (by
          intro x hx
          have := List.find?_eq_none.mp hft x hx
          simpa using this)
      refine ⟨t :: ts2, by simp [updFirstTracks, hnone, hupd], ?_⟩
      rw [List.flatten_cons, List.find?_append, hft, hfind]
      rfl

end FindLemmas

/-! ## Well-formedness predicates used as hypotheses -/

/-- All video clips in the project have pairwise distinct ids. -/
def Project.videoIdsNodup (p : Project) : Prop :=
  (p.video_tracks.flatten.map Clip.id).Nodup

/-- Every clip is stored in the video track its `track_index` names (this is
maintained by every code path of the repository that inserts clips). -/
def Project.tracksConsistent (p : Project) : Prop :=
  ∀ (i : Nat) (t : List Clip), p.video_tracks[i]? = some t → ∀ c ∈ t, c.track_index = i

/-- Preconditions per command kind for the undo/redo symmetry: `delete` needs
distinct ids and consistent track indices, `add` needs the added clip's id to
be fresh; the update-style commands need nothing. -/
def C4pre : EditorCommand → Project → Prop
  | .delete _ => fun p => p.videoIdsNodup ∧ p.tracksConsistent
  | .add c => fun p => c.id ∉ p.video_tracks.flatten.map Clip.id
  | _ => fun _ => True

theorem applyTrim_restore (ni no nts : Option ℚ) (c : Clip) :
    ({ applyTrim ni no nts c with
        in_time := c.in_time, out_time := c.out_time,
        timeline_start := c.timeline_start } : Clip) = c := by
  cases ni <;> cases no <;> cases nts <;> rfl

theorem applyTrim_keeps_id (ni no nts : Option ℚ) (c : Clip) :
    (applyTrim ni no nts c).id = c.id := by
  cases ni <;> cases no <;> cases nts <;> rfl

theorem applyEditSub_restore (nt : Option String) (ns nd : Option ℚ) (s : Subtitle) :
    ({ applyEditSub nt ns nd s with
        text := s.text, start_time := s.start_time,
        duration := s.duration } : Subtitle) = s := by
  cases nt <;> cases ns <;> cases nd <;> rfl

theorem applyEditSub_keeps_id (nt : Option String) (ns nd : Option ℚ) (s : Subtitle) :
    (applyEditSub nt ns nd s).id = s.id := by
  cases nt <;> cases ns <;> cases nd <;> rfl
/-! ## Sample data for witnesses and counterexamples -/

/-- A valid video clip used in concrete scenarios. -/
def clipA : Clip :=
  { id := "c1", source_file := "a.mp4", in_time := 0, out_time := 10, timeline_start := 0, track_index := 0, name := "a.mp4", enabled := true }

/-- A one-clip project used in concrete scenarios. -/
def proj1 : Project :=
  { id := "p", name := "n", video_tracks := [[clipA]], audio_tracks := [[], []], subtitles := [], settings := ProjectSettings.default, media_pool := [] }

/-! ## Claim C4 -/

/-- C4: for each command kind Move, Trim, Delete, Add, ChangeVolume and
EditSubtitle, from any project on which the command's `execute()` succeeds
(`C4pre` asks for distinct clip ids and consistent track indices exactly
where the command re-locates clips by id), running `execute`, then `undo`,
then `redo` (`execute` again) ends in exactly the project state produced by
the original `execute`. -/
theorem undo_redo_symmetry (cmd : EditorCommand) (p p1 : Project) (s : Saved)
    (hpre : C4pre cmd p) (hexec : execCmd cmd p = some (p1, s)) :
    ∃ p2, undoCmd cmd s p1 = some p2 ∧ ∃ s2, execCmd cmd p2 = some (p1, s2) := by
  cases cmd with
  | move cid ns =>
    simp only [execCmd] at hexec
    cases hupd : updFirstTracks (fun c : Clip => c.id) cid (fun c => { c with timeline_start := ns }) p.video_tracks with
    | none => rw [hupd] at hexec; simp at hexec
    | some r =>
      obtain ⟨c, ts2⟩ := r
      rw [hupd] at hexec
      simp only [Option.map_some', Option.some.injEq, Prod.mk.injEq] at hexec
      obtain ⟨h1, h2⟩ := hexec
      subst h1; subst h2
      have hrest := updFirstTracks_restore (g := fun x => { x with timeline_start := c.timeline_start }) hupd (fun x => rfl) rfl
      refine ⟨p, ?_, .moveS c.timeline_start, ?_⟩
      · simp only [undoCmd]
        rw [hrest]
        rfl
      · simp only [execCmd]
        rw [hupd]
        rfl
  | trim cid ni no nts =>
    simp only [execCmd] at hexec
    cases hupd : updFirstTracks (fun c : Clip => c.id) cid (applyTrim ni no nts) p.video_tracks with
    | none => rw [hupd] at hexec; simp at hexec
    | some r =>
      obtain ⟨c, ts2⟩ := r
      rw [hupd] at hexec
      simp only [Option.map_some', Option.some.injEq, Prod.mk.injEq] at hexec
      obtain ⟨h1, h2⟩ := hexec
      subst h1; subst h2
      have hrest := updFirstTracks_restore (g := fun x => { x with in_time := c.in_time, out_time := c.out_time, timeline_start := c.timeline_start }) hupd (fun x => applyTrim_keeps_id ni no nts x) (applyTrim_restore ni no nts c)
      refine ⟨p, ?_, .trimS c.in_time c.out_time c.timeline_start, ?_⟩
      · simp only [undoCmd]
        rw [hrest]
        rfl
      · simp only [execCmd]
        rw [hupd]
        rfl
  | changeVolume cid nv =>
    simp only [execCmd] at hexec
    cases hupd : updFirstTracks (fun c : AudioClip => c.id) cid (fun c => { c with volume := nv }) p.audio_tracks with
    | none => rw [hupd] at hexec; simp at hexec
    | some r =>
      obtain ⟨c, ts2⟩ := r
      rw [hupd] at hexec
      simp only [Option.map_some', Option.some.injEq, Prod.mk.injEq] at hexec
      obtain ⟨h1, h2⟩ := hexec
      subst h1; subst h2
      have hrest := updFirstTracks_restore (g := fun x => { x with volume := c.volume }) hupd (fun x => rfl) rfl
      refine ⟨p, ?_, .volumeS c.volume, ?_⟩
      · simp only [undoCmd]
        rw [hrest]
        rfl
      · simp only [execCmd]
        rw [hupd]
        rfl
  | editSubtitle sid nt nst nd =>
    simp only [execCmd] at hexec
    cases hupd : updFirst (fun s : Subtitle => s.id) sid (applyEditSub nt nst nd) p.subtitles with
    | none => rw [hupd] at hexec; simp at hexec
    | some r =>
      obtain ⟨c, l2⟩ := r
      rw [hupd] at hexec
      simp only [Option.map_some', Option.some.injEq, Prod.mk.injEq] at hexec
      obtain ⟨h1, h2⟩ := hexec
      subst h1; subst h2
      have hrest := updFirst_restore (g := fun x => { x with text := c.text, start_time := c.start_time, duration := c.duration }) hupd (fun x => applyEditSub_keeps_id nt nst nd x) (applyEditSub_restore nt nst nd c)
      refine ⟨p, ?_, .editSubS c.text c.start_time c.duration, ?_⟩
      · simp only [undoCmd]
        rw [hrest]
        rfl
      · simp only [execCmd]
        rw [hupd]
        rfl
  | delete cid =>
    obtain ⟨hnd, hcons⟩ := hpre
    simp only [execCmd] at hexec
    cases hrem : remFirstTracks (fun c : Clip => c.id) cid p.video_tracks with
    | none => rw [hrem] at hexec; simp at hexec
    | some r =>
      obtain ⟨c, ts2⟩ := r
      rw [hrem] at hexec
      simp only [Option.map_some', Option.some.injEq, Prod.mk.injEq] at hexec
      obtain ⟨h1, h2⟩ := hexec
      subst h1; subst h2
      obtain ⟨hid, hlen, ⟨i, t, hit, hmem⟩, hcnt⟩ := remFirstTracks_spec hrem
      have hilt : i < p.video_tracks.length := by
        rcases List.getElem?_eq_some.mp hit with ⟨h, _⟩; exact h
      have htk : c.track_index = i := hcons i t hit c hmem
      have hits2 : i < ts2.length := by omega
      have hle : p.video_tracks.flatten.countP (fun x => x.id = cid) ≤ 1 :=
        countP_le_one_of_nodup_map hnd
      have hzero : ts2.flatten.countP (fun x => x.id = cid) = 0 := by omega
      have hnocid : ∀ x ∈ ts2.flatten, x.id ≠ cid := by
        intro x hx
        have := List.countP_eq_zero.mp hzero x hx
        simpa using this
      have hrem2 : remFirstTracks (fun c : Clip => c.id) cid (appendAt ts2 i c) = some (c, ts2) :=
        remFirstTracks_appendAt hits2 hnocid hid
      refine ⟨({ p with video_tracks := ts2 } : Project).add_clip c, rfl, .deleteS c, ?_⟩
      simp only [execCmd, Project.add_clip]
      rw [htk, extendTracks_of_lt hits2, hrem2]
      rfl
  | add c =>
    simp only [execCmd, Option.some.injEq, Prod.mk.injEq] at hexec
    obtain ⟨h1, h2⟩ := hexec
    subst h1; subst h2
    have hfresh : ∀ x ∈ p.video_tracks.flatten, x.id ≠ c.id := by
      intro x hx heq
      exact hpre (heq ▸ List.mem_map_of_mem Clip.id hx)
    have hk : c.track_index < (extendTracks p.video_tracks c.track_index).length := by
      rw [extendTracks_length]; omega
    have hnoc : ∀ x ∈ (extendTracks p.video_tracks c.track_index).flatten, x.id ≠ c.id := by
      rw [extendTracks_flatten]; exact hfresh
    have hrem : remFirstTracks (fun x : Clip => x.id) c.id (appendAt (extendTracks p.video_tracks c.track_index) c.track_index c) = some (c, extendTracks p.video_tracks c.track_index) :=
      remFirstTracks_appendAt hk hnoc rfl
    refine ⟨{ p with video_tracks := extendTracks p.video_tracks c.track_index }, ?_, .addS, ?_⟩
    · simp only [undoCmd, Project.remove_clip, Project.add_clip]
      rw [hrem]
      rfl
    · simp only [execCmd, Project.add_clip]
      rw [extendTracks_of_lt hk]

/-- Witness for C4 at a concrete input: moving the only clip of a concrete
one-clip project satisfies the precondition and the symmetry property. -/
theorem undo_redo_symmetry_witness :
    C4pre (.move "c1" 7) proj1 ∧
    ∃ p1 s, execCmd (.move "c1" 7) proj1 = some (p1, s) ∧
      ∃ p2, undoCmd (.move "c1" 7) s p1 = some p2 ∧
        ∃ s2, execCmd (.move "c1" 7) p2 = some (p1, s2) := by
  refine ⟨trivial, _, _, rfl, ?_⟩
  exact undo_redo_symmetry (.move "c1" 7) proj1 _ _ trivial rfl


/-! ## Claim C5: split correctness on the concrete scenario -/

/-- The second-half clip that the concrete split produces. -/
def clipA2 : Clip :=
  { id := "c2", source_file := "a.mp4", in_time := 4, out_time := 10, timeline_start := 4, track_index := 0, name := "a.mp4 (2)", enabled := true }

/-- The project state after the concrete split. -/
def proj1Split : Project :=
  { proj1 with video_tracks := [[{ clipA with out_time := 4 }, clipA2]] }

/-- C5: on a project holding one clip with `in_time=0, out_time=10,
timeline_start=0`, `SplitClipCommand` at `split_time=4` (fresh uuid `"c2"`)
succeeds and leaves exactly two clips: the original trimmed to `out_time=4`
(`in_time` and `timeline_start` unchanged) and a new clip with `in_time=4,
out_time=10, timeline_start=4` on the same track; `undo()` then removes the
new clip and restores the single original clip with `out_time=10`. -/
theorem split_concrete :
    splitExec proj1 "c1" 4 "c2" = some (proj1Split, clipA2, 10) ∧
    splitUndo proj1Split "c1" clipA2 10 = some proj1 := by
  constructor <;> decide

/-! ## Claim C6: split outside the clip is rejected without mutation -/

/-- C6: for every project and clip id found in it, a `SplitClipCommand` whose
`split_time` lies outside the clip's `[timeline_start, timeline_end)` fails:
`execute` returns `False` (modelled as `none`), so the project value is left
entirely unchanged — no clip field is modified and no clip is added. -/
theorem split_outside_rejected (p : Project) (cid : String) (t : ℚ) (c : Clip)
    (nid : String) (hget : p.get_clip_by_id cid = some c)
    (hout : ¬ c.contains_time t) :
    splitExec p cid t nid = none := by
  simp only [splitExec, hget]
  rw [if_neg hout]

/-- Witness for C6: splitting the concrete one-clip project at time 20
(outside `[0, 10)`) is rejected. -/
theorem split_outside_rejected_witness :
    splitExec proj1 "c1" 20 "c9" = none :=
  split_outside_rejected proj1 "c1" 20 clipA "c9" (by decide) (by decide)

/-! ## Claim C1 (corrected): Move and Trim perform no validation -/

/-- Counterexample to C1 as stated: on a valid one-clip project,
`MoveClipCommand` to `timeline_start = -1` *succeeds* (`execute` returns
true and mutates the clip to a negative timeline position), and
`TrimClipCommand` to `out_time = -5` *succeeds* leaving
`out_time < in_time`; neither command is rejected. -/
theorem move_trim_no_validation :
    (execCmd (.move "c1" (-1)) proj1 =
      some ({ proj1 with video_tracks := [[{ clipA with timeline_start := -1 }]] }, .moveS 0) ∧
      ((-1 : ℚ) < 0)) ∧
    (execCmd (.trim "c1" none (some (-5)) none) proj1 =
      some ({ proj1 with video_tracks := [[{ clipA with out_time := -5 }]] }, .trimS 0 10 0) ∧
      ¬ ((0 : ℚ) < -5)) := by
  constructor <;> exact ⟨by decide, by decide⟩

/-- C1 amended: `MoveClipCommand` and `TrimClipCommand` validate nothing.
Whenever the target clip exists, `execute` returns true and writes the
requested values verbatim — for *any* `new_start` (including negative ones)
and any combination of new trim values (including ones violating
`in_time < out_time`).  The spec invariant is thus not enforced by these
commands; only `SplitClipCommand` checks its time. -/
theorem move_trim_accept_any_values (p : Project) (cid : String) (c : Clip)
    (ns : ℚ) (ni no nts : Option ℚ) (hget : p.get_clip_by_id cid = some c) :
    (∃ ts2, execCmd (.move cid ns) p = some ({ p with video_tracks := ts2 }, .moveS c.timeline_start) ∧
      ({ p with video_tracks := ts2 } : Project).get_clip_by_id cid = some { c with timeline_start := ns }) ∧
    (∃ ts3, execCmd (.trim cid ni no nts) p = some ({ p with video_tracks := ts3 }, .trimS c.in_time c.out_time c.timeline_start) ∧
      ({ p with video_tracks := ts3 } : Project).get_clip_by_id cid = some (applyTrim ni no nts c)) := by
  constructor
  · obtain ⟨ts2, hupd, hfind⟩ := updFirstTracks_of_find?
      (f := fun c => { c with timeline_start := ns }) hget (fun x => rfl)
    exact ⟨ts2, by simp only [execCmd]; rw [hupd]; rfl, hfind⟩
  · obtain ⟨ts3, hupd, hfind⟩ := updFirstTracks_of_find?
      (f := applyTrim ni no nts) hget (fun x => applyTrim_keeps_id ni no nts x)
    exact ⟨ts3, by simp only [execCmd]; rw [hupd]; rfl, hfind⟩

/-- Witness for the amended C1 at a concrete input: the clip exists, and the
conclusion holds with the invariant-violating values `-3` and `-5`. -/
theorem move_trim_accept_any_values_witness :
    (∃ ts2, execCmd (.move "c1" (-3)) proj1 = some ({ proj1 with video_tracks := ts2 }, .moveS clipA.timeline_start) ∧
      ({ proj1 with video_tracks := ts2 } : Project).get_clip_by_id "c1" = some { clipA with timeline_start := -3 }) ∧
    (∃ ts3, execCmd (.trim "c1" none (some (-5)) none) proj1 = some ({ proj1 with video_tracks := ts3 }, .trimS clipA.in_time clipA.out_time clipA.timeline_start) ∧
      ({ proj1 with video_tracks := ts3 } : Project).get_clip_by_id "c1" = some (applyTrim none (some (-5)) none clipA)) :=
  move_trim_accept_any_values proj1 "c1" clipA (-3) none (some (-5)) none (by decide)


/-! ## Claim C3: save/load round trip -/

/-- `__post_init__` stability of a clip name: every clip built by the
dataclass constructor satisfies this (the name defaulting is idempotent). -/
def Clip.nameStable (c : Clip) : Prop :=
  postInitName c.name c.source_file = c.name

def AudioClip.nameStable (c : AudioClip) : Prop :=
  postInitName c.name c.source_file = c.name

instance (c : Clip) : Decidable c.nameStable :=
  inferInstanceAs (Decidable (_ = _))

instance (c : AudioClip) : Decidable c.nameStable :=
  inferInstanceAs (Decidable (_ = _))

theorem clip_from_dict_to_dict {c : Clip} (h : c.nameStable) :
    Clip.from_dict c.to_dict = c := by
  simp only [Clip.from_dict, Clip.to_dict, Clip.mkPost, Clip.nameStable] at *
  rw [h]

theorem audio_from_dict_to_dict {c : AudioClip} (h : c.nameStable) :
    AudioClip.from_dict c.to_dict = c := by
  simp only [AudioClip.from_dict, AudioClip.to_dict, AudioClip.mkPost,
    AudioClip.nameStable] at *
  rw [h]

theorem map2_from_to_clip {vt : List (List Clip)}
    (h : ∀ t ∈ vt, ∀ c ∈ t, c.nameStable) :
    (vt.map (fun t => t.map Clip.to_dict)).map (fun t => t.map Clip.from_dict) = vt := by
  rw [List.map_map]
  have hall : ∀ t ∈ vt, ((fun t => t.map Clip.from_dict) ∘ (fun t => t.map Clip.to_dict)) t = id t := by
    intro t ht
    simp only [Function.comp_apply, List.map_map, id]
    have : ∀ c ∈ t, (Clip.from_dict ∘ Clip.to_dict) c = id c := fun c hc =>
      clip_from_dict_to_dict (h t ht c hc)
    rw [List.map_congr_left this, List.map_id]
  rw [List.map_congr_left hall, List.map_id]

theorem map2_from_to_audio {ats : List (List AudioClip)}
    (h : ∀ t ∈ ats, ∀ c ∈ t, c.nameStable) :
    (ats.map (fun t => t.map AudioClip.to_dict)).map (fun t => t.map AudioClip.from_dict) = ats := by
  rw [List.map_map]
  have hall : ∀ t ∈ ats, ((fun t => t.map AudioClip.from_dict) ∘ (fun t => t.map AudioClip.to_dict)) t = id t := by
    intro t ht
    simp only [Function.comp_apply, List.map_map, id]
    have : ∀ c ∈ t, (AudioClip.from_dict ∘ AudioClip.to_dict) c = id c := fun c hc =>
      audio_from_dict_to_dict (h t ht c hc)
    rw [List.map_congr_left this, List.map_id]
  rw [List.map_congr_left hall, List.map_id]

/-- C3: for every project whose clip names satisfy the constructor invariant
(`__post_init__` has run, which holds of every Python `Clip`/`AudioClip`),
saving and re-loading yields a project structurally equal to the original on
all §3 fields: id, name, video tracks, audio tracks, subtitles, settings and
media pool. -/
theorem save_load_roundtrip (p : Project) (saved_at : String)
    (hv : ∀ t ∈ p.video_tracks, ∀ c ∈ t, c.nameStable)
    (ha : ∀ t ∈ p.audio_tracks, ∀ c ∈ t, c.nameStable) :
    load_project (save_project p saved_at) = p := by
  show Project.from_dict p.to_dict = p
  cases p with
  | mk pid pname vt ats subs st mp =>
    have hsubs : (subs.map Subtitle.to_dict).map Subtitle.from_dict = subs := by
      rw [List.map_map]
      have : ∀ s ∈ subs, (Subtitle.from_dict ∘ Subtitle.to_dict) s = id s :=
        fun s _ => rfl
      rw [List.map_congr_left this, List.map_id]
    simp only [Project.from_dict, Project.to_dict]
    rw [map2_from_to_clip hv, map2_from_to_audio ha, hsubs]
    rfl

/-- Witness for C3: the concrete one-clip project round-trips. -/
theorem save_load_roundtrip_witness :
    load_project (save_project proj1 "2026-10-12T00:00:00") = proj1 :=
  save_load_roundtrip proj1 "2026-10-12T00:00:00" (by decide) (by decide)

/-! ## Claim C9: export fail-fast on zero enabled video clips -/

/-- C9: compiling a project with zero *enabled* video clips — in particular a
project with video clips that are all disabled — raises
`ValueError("No video clips to export")` (modelled as `Except.error`) before
any command list is constructed; no process is spawned and the builder never
touches the project (it is a pure reader). -/
theorem export_fail_fast (p : Project) (settings : ExportSettings)
    (srt : Option String) (se : Bool)
    (h : p.video_tracks.flatten.filter (fun c => c.enabled) = []) :
    build_export_command p settings srt se = .error "No video clips to export" := by
  have hcol : collect_video_clips p = [] := by
    rw [collect_video_clips, h]
    rfl
  simp [build_export_command, hcol]

/-- A project whose only video clip is disabled (and which still has audio). -/
def projDisabled : Project :=
  { proj1 with video_tracks := [[{ clipA with enabled := false }]] }

/-- Sample export settings matching the `ExportSettings` defaults. -/
def settingsA : ExportSettings :=
  { output_path := "out.mp4", width := 1920, height := 1080, fps := 30, video_codec := "libx264", video_preset := "medium", video_crf := 18, audio_codec := "aac", audio_bitrate := "192k", burn_subtitles := true }

/-- Witness for C9: a project with one disabled video clip fails fast. -/
theorem export_fail_fast_witness :
    build_export_command projDisabled settingsA none false =
      .error "No video clips to export" :=
  export_fail_fast projDisabled settingsA none false (by decide)


/-! ## Claim C7: history bound -/

theorem histExecuteAll_general {κ σ : Type} (run : κ → σ → Option σ) (m : Nat) :
    ∀ (cs : List κ) (s : List κ) (st st2 : σ), s.length ≤ m →
      runAll run st cs = some st2 →
      histExecuteAll run (⟨s, [], m⟩, st) cs =
        (⟨(s ++ cs).drop (s.length + cs.length - m), [], m⟩, st2) := by
  intro cs
  induction cs with
  | nil =>
    intro s st st2 hs hr
    simp only [runAll, Option.some.injEq] at hr
    subst hr
    have h0 : s.length - m = 0 := by omega
    simp [histExecuteAll, h0]
  | cons c cs ih =>
    intro s st st2 hs hr
    simp only [runAll] at hr
    cases hrc : run c st with
    | none => rw [hrc] at hr; cases hr
    | some st1 =>
      rw [hrc] at hr
      simp only [histExecuteAll, histExecute, hrc]
      by_cases hm : m < (s ++ [c]).length
      · have hsm : s.length = m := by
          simp only [List.length_append, List.length_cons, List.length_nil] at hm
          omega
        rw [if_pos hm]
        have hlen2 : ((s ++ [c]).drop 1).length ≤ m := by simp; omega
        rw [ih _ st1 st2 hlen2 hr]
        have happ : (s ++ [c]) ++ cs = s ++ c :: cs := by simp
        have hd1 : ((s ++ [c]) ++ cs).drop 1 = (s ++ [c]).drop 1 ++ cs :=
          List.drop_append_of_le_length (by simp)
        have e1 : ((s ++ [c]).drop 1).length = m := by simp [hsm]
        have e2 : m + cs.length - m = cs.length := by omega
        have e3 : s.length + (c :: cs).length - m = cs.length + 1 := by
          simp only [List.length_cons]
          omega
        rw [e1, e2, e3, ← happ, ← hd1, List.drop_drop, Nat.add_comm 1 cs.length]
      · rw [if_neg hm]
        have hlen2 : (s ++ [c]).length ≤ m := by
          simp only [List.length_append, List.length_cons, List.length_nil] at hm ⊢
          omega
        rw [ih _ st1 st2 hlen2 hr]
        have happ : (s ++ [c]) ++ cs = s ++ c :: cs := by simp
        have e : (s ++ [c]).length + cs.length - m = s.length + (c :: cs).length - m := by
          simp only [List.length_append, List.length_cons, List.length_nil]
          omega
        rw [happ, e]

/-- C7: executing `max_history + 1` commands that all succeed, starting from
a fresh history, leaves exactly `max_history` entries on the undo stack,
namely all but the *first* (oldest, bottom-of-stack) command — `cs.drop 1` —
while the final state is `runAll` of the whole list, i.e. the evicted
command's effect is still applied even though it is no longer undoable. -/
theorem history_bound {κ σ : Type} (run : κ → σ → Option σ) (m : Nat)
    (cs : List κ) (st st2 : σ) (hrun : runAll run st cs = some st2)
    (hlen : cs.length = m + 1) :
    histExecuteAll run (⟨[], [], m⟩, st) cs = (⟨cs.drop 1, [], m⟩, st2) ∧
    (cs.drop 1).length = m := by
  have h := histExecuteAll_general run m cs [] st st2 (by simp) hrun
  constructor
  · rw [h]
    have e : ([] : List κ).length + cs.length - m = 1 := by
      simp only [List.length_nil, hlen]
      omega
    rw [e, List.nil_append]
  · simp [hlen]

/-- Witness for C7: 101 always-succeeding commands on a `max_history = 100`
history leave a 100-entry undo stack (the first command evicted) and a state
reflecting all 101 commands. -/
theorem history_bound_witness :
    histExecuteAll (fun (c s : Nat) => some (s + c)) (⟨[], [], 100⟩, 0)
        (List.replicate 101 1) =
      (⟨(List.replicate 101 1).drop 1, [], 100⟩, 101) ∧
    ((List.replicate 101 1).drop 1).length = 100 :=
  history_bound (fun (c s : Nat) => some (s + c)) 100 (List.replicate 101 1)
    0 101 (by decide) (by decide)


/-! ## Claim C10: add_clip silently creates missing tracks -/

theorem extendTracks_getElem? {α : Type} (ts : List (List α)) (k i : Nat) :
    (extendTracks ts k)[i]? =
      if i < ts.length then ts[i]? else if i < k + 1 then some [] else none := by
  rw [extendTracks_eq, List.getElem?_append]
  by_cases h1 : i < ts.length
  · rw [if_pos h1, if_pos h1]
  · rw [if_neg h1, if_neg h1, List.getElem?_replicate]
    by_cases h2 : i < k + 1
    · rw [if_pos h2, if_pos (by omega)]
    · rw [if_neg h2, if_neg (by omega)]

theorem extendTracks_getD {α : Type} (ts : List (List α)) (k : Nat) :
    (extendTracks ts k).getD k [] = ts.getD k [] := by
  rw [List.getD_eq_getElem?_getD, List.getD_eq_getElem?_getD, extendTracks_getElem?]
  by_cases h : k < ts.length
  · rw [if_pos h]
  · rw [if_neg h, if_pos (by omega), List.getElem?_eq_none (by omega)]
    rfl

theorem appendAt_extendTracks_length {α : Type} (ts : List (List α)) (k : Nat) (c : α) :
    (appendAt (extendTracks ts k) k c).length = max ts.length (k + 1) := by
  simp [appendAt, extendTracks_length]

theorem appendAt_extendTracks_getElem? {α : Type} (ts : List (List α)) (k : Nat)
    (c : α) (i : Nat) :
    (appendAt (extendTracks ts k) k c)[i]? =
      if i = k then some (ts.getD k [] ++ [c])
      else if i < ts.length then ts[i]? else if i < k + 1 then some [] else none := by
  by_cases hik : i = k
  · subst hik
    have hklen : i < (extendTracks ts i).length := by rw [extendTracks_length]; omega
    rw [if_pos rfl, appendAt, List.getElem?_set_self']
    simp only [hklen, if_pos, extendTracks_getD]
    simp [hklen]
  · rw [if_neg hik, appendAt, List.getElem?_set_ne (Ne.symm hik)]
    exact extendTracks_getElem? ts k i

/-- C10: for a clip with `track_index = k`, `Project.add_clip` appends empty
tracks until `len(video_tracks) > k` and then appends the clip to track `k`:
the track list grows to `max (len) (k+1)`, entry `k` becomes its previous
value (or `[]` when absent) with the clip appended, every other existing
track is unchanged, every newly created intervening track is `[]`, and no
other project field changes; `add_audio_clip` behaves identically on
`audio_tracks`. -/
theorem add_clip_creates_missing_tracks (p : Project) (c : Clip) (a : AudioClip) :
    ((p.add_clip c).video_tracks.length = max p.video_tracks.length (c.track_index + 1)) ∧
    (∀ i, (p.add_clip c).video_tracks[i]? =
      if i = c.track_index then some (p.video_tracks.getD c.track_index [] ++ [c])
      else if i < p.video_tracks.length then p.video_tracks[i]?
      else if i < c.track_index + 1 then some [] else none) ∧
    ((p.add_clip c).audio_tracks = p.audio_tracks) ∧
    ((p.add_clip c).subtitles = p.subtitles) ∧
    ((p.add_audio_clip a).audio_tracks.length = max p.audio_tracks.length (a.track_index + 1)) ∧
    (∀ i, (p.add_audio_clip a).audio_tracks[i]? =
      if i = a.track_index then some (p.audio_tracks.getD a.track_index [] ++ [a])
      else if i < p.audio_tracks.length then p.audio_tracks[i]?
      else if i < a.track_index + 1 then some [] else none) ∧
    ((p.add_audio_clip a).video_tracks = p.video_tracks) := by
  refine ⟨?_, ?_, rfl, rfl, ?_, ?_, rfl⟩
  · exact appendAt_extendTracks_length p.video_tracks c.track_index c
  · intro i
    exact appendAt_extendTracks_getElem? p.video_tracks c.track_index c i
  · exact appendAt_extendTracks_length p.audio_tracks a.track_index a
  · intro i
    exact appendAt_extendTracks_getElem? p.audio_tracks a.track_index a i


/-! ## Export-graph lemmas for C2 and C8 -/

/-- Recognize an `atrim` filter part. -/
def FilterPart.isATrim : FilterPart → Bool
  | .atrim _ _ _ _ => true
  | _ => false

/-- Recognize a `trim` (video) filter part. -/
def FilterPart.isVTrim : FilterPart → Bool
  | .vtrim _ _ _ _ => true
  | _ => false

theorem trimSection_eq_map (mk : Nat → ℚ → ℚ → Nat → FilterPart) (inputs : List String) :
    ∀ (i : Nat) (cs : List TrimmedClip),
      trimSection mk inputs i cs =
        (cs.enumFrom i).map
          (fun jc => mk (inputs.indexOf jc.2.source_file) jc.2.in_time jc.2.out_time jc.1) := by
  intro i cs
  induction cs generalizing i with
  | nil => rfl
  | cons c cs ih => simp [trimSection, List.enumFrom, ih]

theorem filter_isATrim_vtrim (inputs : List String) :
    ∀ (i : Nat) (cs : List TrimmedClip),
      (trimSection FilterPart.vtrim inputs i cs).filter FilterPart.isATrim = [] := by
  intro i cs
  induction cs generalizing i with
  | nil => rfl
  | cons c cs ih => simp [trimSection, List.filter_cons, FilterPart.isATrim, ih]

theorem filter_isATrim_atrim (inputs : List String) :
    ∀ (i : Nat) (cs : List TrimmedClip),
      (trimSection FilterPart.atrim inputs i cs).filter FilterPart.isATrim =
        trimSection FilterPart.atrim inputs i cs := by
  intro i cs
  induction cs generalizing i with
  | nil => rfl
  | cons c cs ih => simp [trimSection, List.filter_cons, FilterPart.isATrim, ih]

theorem filter_isVTrim_vtrim (inputs : List String) :
    ∀ (i : Nat) (cs : List TrimmedClip),
      (trimSection FilterPart.vtrim inputs i cs).filter FilterPart.isVTrim =
        trimSection FilterPart.vtrim inputs i cs := by
  intro i cs
  induction cs generalizing i with
  | nil => rfl
  | cons c cs ih => simp [trimSection, List.filter_cons, FilterPart.isVTrim, ih]

theorem filter_isVTrim_atrim (inputs : List String) :
    ∀ (i : Nat) (cs : List TrimmedClip),
      (trimSection FilterPart.atrim inputs i cs).filter FilterPart.isVTrim = [] := by
  intro i cs
  induction cs generalizing i with
  | nil => rfl
  | cons c cs ih => simp [trimSection, List.filter_cons, FilterPart.isVTrim, ih]

/-- Unpack a successful `build_export_command` into its components. -/
theorem build_export_command_ok {p : Project} {settings : ExportSettings}
    {srt : Option String} {se : Bool} {ec : ExportCommand}
    (h : build_export_command p settings srt se = .ok ec) :
    collect_video_clips p ≠ [] ∧
    ec.inputs = collectInputs (collect_audio_clips p) (collectInputs (collect_video_clips p) []) ∧
    ec.filter_parts =
      trimSection .vtrim ec.inputs 0 (collect_video_clips p) ++
      (if 1 < (collect_video_clips p).length
        then [FilterPart.vconcat (collect_video_clips p).length] else [FilterPart.vnull]) ++
      trimSection .atrim ec.inputs 0 (collect_video_clips p) ++
      (if 1 < (collect_video_clips p).length
        then [FilterPart.aconcat (collect_video_clips p).length] else [FilterPart.anull]) ++
      (if settings.width ≠ 0 ∨ settings.height ≠ 0
        then [FilterPart.scalePad settings.width settings.height] else []) ++
      finalSegment settings srt se ∧
    ec.output_path = settings.output_path := by
  by_cases hv : collect_video_clips p = []
  · rw [build_export_command.eq_def] at h
    simp only [hv, if_pos rfl] at h
    cases h
  · rw [build_export_command.eq_def] at h
    rw [if_neg hv] at h
    simp only [Except.ok.injEq] at h
    subst h
    exact ⟨hv, rfl, rfl, rfl⟩

/-! ## Claim C2 (corrected): audio trim nodes are built from the video clips -/

/-- C2 amended: the builder does collect the enabled audio clips sorted by
`timeline_start` and registers one input per new source file, but the audio
filter chain is built from the *video* clips: the `aN` trim/`asetpts` nodes
are emitted for the enumerated video clips, each referencing the video
clip's input index and `[in_time, out_time)`; the collected audio clips
contribute nothing but `-i` entries. -/
theorem audio_nodes_from_video_clips (p : Project) (settings : ExportSettings)
    (srt : Option String) (se : Bool) (ec : ExportCommand)
    (h : build_export_command p settings srt se = .ok ec) :
    ec.inputs = collectInputs (collect_audio_clips p) (collectInputs (collect_video_clips p) []) ∧
    ec.filter_parts.filter FilterPart.isATrim =
      ((collect_video_clips p).enumFrom 0).map
        (fun jc => FilterPart.atrim (ec.inputs.indexOf jc.2.source_file)
          jc.2.in_time jc.2.out_time jc.1) := by
  obtain ⟨hv, hin, hparts, hout⟩ := build_export_command_ok h
  refine ⟨hin, ?_⟩
  rw [hparts]
  simp only [List.filter_append]
  rw [filter_isATrim_vtrim, filter_isATrim_atrim, trimSection_eq_map]
  have h1 : (if 1 < (collect_video_clips p).length
      then [FilterPart.vconcat (collect_video_clips p).length]
      else [FilterPart.vnull]).filter FilterPart.isATrim = [] := by
    split <;> rfl
  have h2 : (if 1 < (collect_video_clips p).length
      then [FilterPart.aconcat (collect_video_clips p).length]
      else [FilterPart.anull]).filter FilterPart.isATrim = [] := by
    split <;> rfl
  have h3 : (if settings.width ≠ 0 ∨ settings.height ≠ 0
      then [FilterPart.scalePad settings.width settings.height]
      else []).filter FilterPart.isATrim = [] := by
    split <;> rfl
  have h4 : (finalSegment settings srt se).filter FilterPart.isATrim = [] := by
    cases srt with
    | none => rfl
    | some sp =>
      rw [finalSegment]
      split <;> rfl
  rw [h1, h2, h3, h4]
  simp

/-- The concrete one-video-clip, one-audio-clip project of the C2
counterexample. -/
def clipV : Clip :=
  { id := "v1", source_file := "v.mp4", in_time := 0, out_time := 5, timeline_start := 0, track_index := 0, name := "v", enabled := true }

def audioM : AudioClip :=
  { id := "a1", source_file := "m.mp3", in_time := 1, out_time := 3, timeline_start := 0, track_index := 0, volume := 1, name := "m", enabled := true }

def projAV : Project :=
  { id := "p2", name := "av", video_tracks := [[clipV]], audio_tracks := [[audioM], []], subtitles := [], settings := ProjectSettings.default, media_pool := [] }

/-- What the builder actually produces for `projAV`. -/
def ecAV : ExportCommand :=
  { inputs := ["v.mp4", "m.mp3"],
    filter_parts := [.vtrim 0 0 5 0, .vnull, .atrim 0 0 5 0, .anull, .scalePad 1920 1080, .finalNull],
    output_path := "out.mp4" }

/-- Counterexample to C2 as stated: for a project whose only enabled audio
clip reads `[1, 3)` of input 1 (`m.mp3`), the single emitted `a0` node is
`atrim` over input 0 (`v.mp4`) with the *video* clip's range `[0, 5)`; no
node referencing the audio clip's input index and range is emitted at all. -/
theorem audio_nodes_counterexample :
    build_export_command projAV settingsA none false = .ok ecAV ∧
    FilterPart.atrim 1 1 3 0 ∉ ecAV.filter_parts ∧
    ecAV.filter_parts.filter FilterPart.isATrim = [.atrim 0 0 5 0] := by
  refine ⟨by rfl, by decide, by decide⟩

/-- Witness for the amended C2 at the concrete input `projAV`. -/
theorem audio_nodes_from_video_clips_witness :
    ecAV.inputs = collectInputs (collect_audio_clips projAV) (collectInputs (collect_video_clips projAV) []) ∧
    ecAV.filter_parts.filter FilterPart.isATrim =
      ((collect_video_clips projAV).enumFrom 0).map
        (fun jc => FilterPart.atrim (ecAV.inputs.indexOf jc.2.source_file)
          jc.2.in_time jc.2.out_time jc.1) :=
  audio_nodes_from_video_clips projAV settingsA none false ecAV (by rfl)


/-! ## Claim C8: input deduplication -/

theorem collectInputs_nodup :
    ∀ (cs : List TrimmedClip) (acc : List String), acc.Nodup →
      (collectInputs cs acc).Nodup := by
  intro cs
  induction cs with
  | nil => intro acc h; exact h
  | cons c cs ih =>
    intro acc h
    by_cases hm : c.source_file ∈ acc
    · simpa [collectInputs, hm] using ih acc h
    · have hnd : (acc ++ [c.source_file]).Nodup := by
        rw [List.nodup_append]
        refine ⟨h, List.nodup_singleton _, ?_⟩
        intro x hx hx1
        rw [List.mem_singleton] at hx1
        subst hx1
        exact hm hx
      simpa [collectInputs, hm] using ih _ hnd

theorem mem_collectInputs :
    ∀ (cs : List TrimmedClip) (acc : List String) (s : String),
      s ∈ collectInputs cs acc ↔ s ∈ acc ∨ ∃ c ∈ cs, c.source_file = s := by
  intro cs
  induction cs with
  | nil => intro acc s; simp [collectInputs]
  | cons c cs ih =>
    intro acc s
    by_cases hm : c.source_file ∈ acc
    · rw [collectInputs, if_pos hm, ih]
      constructor
      · rintro (ha | ⟨c2, hc2, rfl⟩)
        · exact Or.inl ha
        · exact Or.inr ⟨c2, List.mem_cons_of_mem _ hc2, rfl⟩
      · rintro (ha | ⟨c2, hc2, rfl⟩)
        · exact Or.inl ha
        · rcases List.mem_cons.mp hc2 with rfl | h2
          · exact Or.inl hm
          · exact Or.inr ⟨c2, h2, rfl⟩
    · rw [collectInputs, if_neg hm, ih]
      simp only [List.mem_append, List.mem_singleton]
      constructor
      · rintro ((ha | ha) | ⟨c2, hc2, rfl⟩)
        · exact Or.inl ha
        · exact Or.inr ⟨c, List.mem_cons_self c cs, ha.symm⟩
        · exact Or.inr ⟨c2, List.mem_cons_of_mem _ hc2, rfl⟩
      · rintro (ha | ⟨c2, hc2, rfl⟩)
        · exact Or.inl (Or.inl ha)
        · rcases List.mem_cons.mp hc2 with rfl | h2
          · exact Or.inl (Or.inr rfl)
          · exact Or.inr ⟨c2, h2, rfl⟩

theorem mem_insertByStart {x c : TrimmedClip} :
    ∀ {l : List TrimmedClip}, x ∈ insertByStart c l ↔ x = c ∨ x ∈ l := by
  intro l
  induction l with
  | nil => simp [insertByStart]
  | cons d ds ih =>
    by_cases h : c.timeline_start ≤ d.timeline_start
    · simp [insertByStart, h]
    · simp only [insertByStart, if_neg h, List.mem_cons, ih]
      tauto

theorem mem_sortByStart {x : TrimmedClip} :
    ∀ {l : List TrimmedClip}, x ∈ sortByStart l ↔ x ∈ l := by
  intro l
  induction l with
  | nil => simp [sortByStart]
  | cons c cs ih => simp [sortByStart, mem_insertByStart, ih]

theorem mem_collect_video_sources {p : Project} {s : String} :
    (∃ tc ∈ collect_video_clips p, tc.source_file = s) ↔
    ∃ c ∈ p.video_tracks.flatten, c.enabled = true ∧ c.source_file = s := by
  constructor
  · rintro ⟨tc, htc, rfl⟩
    rw [collect_video_clips] at htc
    have hm := mem_sortByStart.mp htc
    simp only [List.mem_map, List.mem_filter] at hm
    obtain ⟨c, ⟨hc, hen⟩, rfl⟩ := hm
    exact ⟨c, hc, hen, rfl⟩
  · rintro ⟨c, hc, hen, rfl⟩
    refine ⟨TrimmedClip.ofClip c, ?_, rfl⟩
    rw [collect_video_clips]
    apply mem_sortByStart.mpr
    simp only [List.mem_map, List.mem_filter]
    exact ⟨c, ⟨hc, hen⟩, rfl⟩

theorem mem_collect_audio_sources {p : Project} {s : String} :
    (∃ tc ∈ collect_audio_clips p, tc.source_file = s) ↔
    ∃ a ∈ p.audio_tracks.flatten, a.enabled = true ∧ a.source_file = s := by
  constructor
  · rintro ⟨tc, htc, rfl⟩
    rw [collect_audio_clips] at htc
    have hm := mem_sortByStart.mp htc
    simp only [List.mem_map, List.mem_filter] at hm
    obtain ⟨a, ⟨ha, hen⟩, rfl⟩ := hm
    exact ⟨a, ha, hen, rfl⟩
  · rintro ⟨a, ha, hen, rfl⟩
    refine ⟨TrimmedClip.ofAudioClip a, ?_, rfl⟩
    rw [collect_audio_clips]
    apply mem_sortByStart.mpr
    simp only [List.mem_map, List.mem_filter]
    exact ⟨a, ⟨ha, hen⟩, rfl⟩

/-- Three enabled clips sharing the single source file `a.mp4`. -/
def clip31 : Clip :=
  { id := "s1", source_file := "a.mp4", in_time := 0, out_time := 2, timeline_start := 0, track_index := 0, name := "a", enabled := true }

def clip32 : Clip :=
  { id := "s2", source_file := "a.mp4", in_time := 2, out_time := 4, timeline_start := 2, track_index := 0, name := "a", enabled := true }

def clip33 : Clip :=
  { id := "s3", source_file := "a.mp4", in_time := 4, out_time := 6, timeline_start := 4, track_index := 0, name := "a", enabled := true }

def proj3 : Project :=
  { id := "p3", name := "three", video_tracks := [[clip31, clip32, clip33]], audio_tracks := [[], []], subtitles := [], settings := ProjectSettings.default, media_pool := [] }

/-- What the builder produces for `proj3`: one input, three trim nodes. -/
def ec3 : ExportCommand :=
  { inputs := ["a.mp4"],
    filter_parts := [.vtrim 0 0 2 0, .vtrim 0 2 4 1, .vtrim 0 4 6 2, .vconcat 3, .atrim 0 0 2 0, .atrim 0 2 4 1, .atrim 0 4 6 2, .aconcat 3, .scalePad 1920 1080, .finalNull],
    output_path := "out.mp4" }

/-- C8: the compiled command holds exactly one `-i` entry per distinct source
file among the enabled clips (the input list has no duplicates, and a source
appears in it iff some enabled video or audio clip uses it), and every video
trim node references the input index recorded for its clip's source file; in
particular the three-clips-one-source project `proj3` compiles to the single
input `["a.mp4"]` referenced by three separate trim nodes. -/
theorem input_dedup (p : Project) (settings : ExportSettings) (srt : Option String)
    (se : Bool) (ec : ExportCommand)
    (h : build_export_command p settings srt se = .ok ec) :
    ec.inputs.Nodup ∧
    (∀ s, s ∈ ec.inputs ↔
      ((∃ c ∈ p.video_tracks.flatten, c.enabled = true ∧ c.source_file = s) ∨
       (∃ a ∈ p.audio_tracks.flatten, a.enabled = true ∧ a.source_file = s))) ∧
    ec.filter_parts.filter FilterPart.isVTrim =
      ((collect_video_clips p).enumFrom 0).map
        (fun jc => FilterPart.vtrim (ec.inputs.indexOf jc.2.source_file)
          jc.2.in_time jc.2.out_time jc.1) ∧
    build_export_command proj3 settingsA none false = .ok ec3 ∧
    ec3.inputs = ["a.mp4"] ∧
    ec3.filter_parts.filter FilterPart.isVTrim =
      [.vtrim 0 0 2 0, .vtrim 0 2 4 1, .vtrim 0 4 6 2] := by
  obtain ⟨hv, hin, hparts, hout⟩ := build_export_command_ok h
  refine ⟨?_, ?_, ?_, by rfl, by rfl, by decide⟩
  · rw [hin]
    exact collectInputs_nodup _ _ (collectInputs_nodup _ [] List.nodup_nil)
  · intro s
    rw [hin, mem_collectInputs, mem_collectInputs]
    rw [← mem_collect_video_sources, ← mem_collect_audio_sources]
    simp only [List.not_mem_nil, false_or]
  · rw [hparts]
    simp only [List.filter_append]
    rw [filter_isVTrim_vtrim, filter_isVTrim_atrim, trimSection_eq_map]
    have h1 : (if 1 < (collect_video_clips p).length
        then [FilterPart.vconcat (collect_video_clips p).length]
        else [FilterPart.vnull]).filter FilterPart.isVTrim = [] := by
      split <;> rfl
    have h2 : (if 1 < (collect_video_clips p).length
        then [FilterPart.aconcat (collect_video_clips p).length]
        else [FilterPart.anull]).filter FilterPart.isVTrim = [] := by
      split <;> rfl
    have h3 : (if settings.width ≠ 0 ∨ settings.height ≠ 0
        then [FilterPart.scalePad settings.width settings.height]
        else []).filter FilterPart.isVTrim = [] := by
      split <;> rfl
    have h4 : (finalSegment settings srt se).filter FilterPart.isVTrim = [] := by
      cases srt with
      | none => rfl
      | some sp =>
        rw [finalSegment]
        split <;> rfl
    rw [h1, h2, h3, h4]
    simp

/-- Witness for C8 at the concrete three-clip project. -/
theorem input_dedup_witness :
    build_export_command proj3 settingsA none false = .ok ec3 ∧ ec3.inputs.Nodup := by
  refine ⟨by rfl, ?_⟩
  exact (input_dedup proj3 settingsA none false ec3 (by rfl)).1

end LazyCut
